import Mathlib

/-!
Verification of the Digital-Twin MCP server's tool layer.

The development shallowly embeds the TypeScript sources:
* `computeFreeSlots` (mcp-server/src/index.ts and tools/calendar.ts) — the
  free-slot sweep over busy calendar intervals;
* `truncateCode`, `fallbackRepoSearch`, `githubSearch` (tools/github.ts) —
  the GitHub code-search tool with its repository-listing fallback;
* `sendDiscordAlert` (tools/discord.ts) — the Discord webhook alert tool;
* the manual `CallToolRequestSchema` dispatch handler (the raw-SDK server);
* the backend's regex tool-call detector (modelled from the spec, since the
  Python backend is not part of the embedded sources).

Timestamps are embedded as `Int` milliseconds (JS `Date.getTime()`), and
JS strings as Lean `String` / `List Char`.
-/

namespace DigitalTwin

/-- Interval of time in epoch milliseconds. Embeds the TS record
`{ start: Date; end: Date }`; the `end` field is named `stop` because `end`
is a Lean keyword. -/
structure Interval where
  start : Int
  stop : Int
  deriving DecidableEq, Repr

/-- Fixed slot-generation step of the sweep: `30 * 60 * 1000` ms
(the literal `t += 30 * 60 * 1000` in `computeFreeSlots`). -/
def STEP : Int := 30 * 60 * 1000

/-- Fuel-indexed form of the inner `while` loop of `computeFreeSlots`;
the fuel only forces termination and is chosen large enough in `emitSlots`
to never be exhausted. -/
def emitSlotsAux : Nat → Int → Int → Int → List Interval
  | 0, _, _, _ => []
  | fuel + 1, t, bound, dur =>
      if t + dur ≤ bound then
        ⟨t, t + dur⟩ :: emitSlotsAux fuel (t + STEP) bound dur
      else []

/-- Inner `while` loop of `computeFreeSlots`: starting at time `t`, emit a
slot `[t, t + dur]` and step forward by `STEP` while `t + dur ≤ bound`. -/
def emitSlots (t bound dur : Int) : List Interval :=
  emitSlotsAux (bound + STEP - dur - t).toNat t bound dur

theorem emitSlotsAux_nil {fuel : Nat} {t bound dur : Int}
    (h : ¬ t + dur ≤ bound) : emitSlotsAux fuel t bound dur = [] := by
  cases fuel with
  | zero => rfl
  | succ f => rw [emitSlotsAux, if_neg h]

theorem emitSlotsAux_congr {bound dur : Int} :
    ∀ (f g : Nat) (t : Int), (bound + STEP - dur - t).toNat ≤ f →
      (bound + STEP - dur - t).toNat ≤ g →
      emitSlotsAux f t bound dur = emitSlotsAux g t bound dur := by
  intro f
  induction f with
  | zero =>
      intro g t hf hg
      by_cases hc : t + dur ≤ bound
      · exfalso
        have hstep : (0 : Int) < STEP := by norm_num [STEP]
        have : (0 : Int) < bound + STEP - dur - t := by omega
        omega
      · rw [emitSlotsAux_nil hc, emitSlotsAux_nil hc]
  | succ f ih =>
      intro g t hf hg
      by_cases hc : t + dur ≤ bound
      · have hstep : (0 : Int) < STEP := by norm_num [STEP]
        have hpos : (0 : Int) < bound + STEP - dur - t := by omega
        obtain ⟨g', rfl⟩ : ∃ g', g = g' + 1 := by
          cases g with
          | zero => exfalso; omega
          | succ g' => exact ⟨g', rfl⟩
        rw [emitSlotsAux, emitSlotsAux, if_pos hc, if_pos hc]
        have hkey : (bound + STEP - dur - (t + STEP)).toNat ≤ f ∧
            (bound + STEP - dur - (t + STEP)).toNat ≤ g' := by
          constructor <;> omega
        rw [ih g' (t + STEP) hkey.1 hkey.2]
      · rw [emitSlotsAux_nil hc, emitSlotsAux_nil hc]

/-- Unfolding equation for `emitSlots`, matching the source loop. -/
theorem emitSlots_eq (t bound dur : Int) :
    emitSlots t bound dur =
      if t + dur ≤ bound then
        ⟨t, t + dur⟩ :: emitSlots (t + STEP) bound dur
      else [] := by
  by_cases hc : t + dur ≤ bound
  · rw [if_pos hc]
    unfold emitSlots
    have hstep : (0 : Int) < STEP := by norm_num [STEP]
    have hpos : (0 : Int) < bound + STEP - dur - t := by omega
    obtain ⟨n, hn⟩ : ∃ n, (bound + STEP - dur - t).toNat = n + 1 := by
      refine ⟨(bound + STEP - dur - t).toNat - 1, ?_⟩
      omega
    rw [hn, emitSlotsAux, if_pos hc]
    have : (bound + STEP - dur - (t + STEP)).toNat ≤ n := by omega
    rw [emitSlotsAux_congr n ((bound + STEP - dur - (t + STEP)).toNat) (t + STEP)
      this (le_refl _)]
  · rw [if_neg hc]
    exact emitSlotsAux_nil hc

/-- Main loop of `computeFreeSlots` over the (already sorted) busy list:
for each block, emit slots in the gap `[cursor, block.start]` when the gap
is at least `dur` wide, then advance the cursor to `block.stop` if that is
later; after the last block, emit slots in `[cursor, windowEnd]`. -/
def sweep (busy : List Interval) (cursor windowEnd dur : Int) : List Interval :=
  match busy with
  | [] =>
      if windowEnd - cursor ≥ dur then emitSlots cursor windowEnd dur else []
  | b :: rest =>
      (if b.start - cursor ≥ dur then emitSlots cursor b.start dur else [])
        ++ sweep rest (max cursor b.stop) windowEnd dur

/-- Ordering used by `busy.sort((a, b) => a.start.getTime() - b.start.getTime())`:
compare intervals by start time only. -/
def startLE (a b : Interval) : Prop := a.start ≤ b.start

instance : DecidableRel startLE := fun a b => inferInstanceAs (Decidable (a.start ≤ b.start))

instance : IsTotal Interval startLE := ⟨fun a b => Int.le_total a.start b.start⟩

instance : IsTrans Interval startLE := ⟨fun _ _ _ h1 h2 => le_trans h1 h2⟩

/-- Stable sort of the busy list by start time, embedding the JS
`Array.prototype.sort` call (stable per ECMA-262). -/
def sortByStart (busy : List Interval) : List Interval :=
  List.insertionSort startLE busy

/-- Embedding of `computeFreeSlots(busy, windowStart, windowEnd, durationMs)`
from `mcp-server/src/index.ts` (identical copy in `tools/calendar.ts`). -/
def computeFreeSlots (busy : List Interval) (windowStart windowEnd dur : Int) :
    List Interval :=
  sweep (sortByStart busy) windowStart windowEnd dur

/-! Basic facts about `emitSlots`. -/

theorem emitSlotsAux_mem {fuel : Nat} {t bound dur : Int} {s : Interval}
    (h : s ∈ emitSlotsAux fuel t bound dur) :
    t ≤ s.start ∧ s.stop ≤ bound ∧ s.stop = s.start + dur := by
  induction fuel generalizing t with
  | zero => simp [emitSlotsAux] at h
  | succ f ih =>
      rw [emitSlotsAux] at h
      split at h
      · rcases List.mem_cons.mp h with rfl | h'
        · exact ⟨le_refl _, by assumption, rfl⟩
        · have hstep : (0 : Int) < STEP := by norm_num [STEP]
          obtain ⟨h1, h2, h3⟩ := ih h'
          exact ⟨by omega, h2, h3⟩
      · simp at h

theorem emitSlots_mem {t bound dur : Int} {s : Interval}
    (h : s ∈ emitSlots t bound dur) :
    t ≤ s.start ∧ s.stop ≤ bound ∧ s.stop = s.start + dur :=
  emitSlotsAux_mem h

/-! Basic facts about `sweep`. -/

theorem sweep_cursor_le {busy : List Interval} {cursor windowEnd dur : Int}
    {s : Interval} (h : s ∈ sweep busy cursor windowEnd dur) :
    cursor ≤ s.start := by
  induction busy generalizing cursor with
  | nil =>
      rw [sweep] at h
      split at h
      · exact (emitSlots_mem h).1
      · simp at h
  | cons b rest ih =>
      rw [sweep] at h
      rcases List.mem_append.mp h with h | h
      · split at h
        · exact (emitSlots_mem h).1
        · simp at h
      · exact le_trans (le_max_left _ _) (ih h)

/-- Disjointness invariant of the sweep: on a list sorted by start time,
every emitted slot either ends before a given busy block starts or starts
after it ends. -/
theorem sweep_disjoint {busy : List Interval} {cursor windowEnd dur : Int}
    (hsorted : List.Pairwise startLE busy)
    {s : Interval} (hs : s ∈ sweep busy cursor windowEnd dur)
    {b : Interval} (hb : b ∈ busy) :
    s.stop ≤ b.start ∨ b.stop ≤ s.start := by
  induction busy generalizing cursor with
  | nil => simp at hb
  | cons c rest ih =>
      rw [sweep] at hs
      rcases List.mem_append.mp hs with hgap | hrest
      · -- slot emitted in the gap before `c`
        have hstop : s.stop ≤ c.start := by
          split at hgap
          · exact (emitSlots_mem hgap).2.1
          · simp at hgap
        rcases List.mem_cons.mp hb with rfl | hb'
        · exact Or.inl hstop
        · exact Or.inl (le_trans hstop ((List.pairwise_cons.mp hsorted).1 b hb'))
      · rcases List.mem_cons.mp hb with rfl | hb'
        · exact Or.inr (le_trans (le_max_right _ _) (sweep_cursor_le hrest))
        · exact ih (List.pairwise_cons.mp hsorted).2 hrest hb'

/-- C1. Every returned free slot is disjoint from every busy interval of the
input list (for any window and positive duration). -/
theorem computeFreeSlots_disjoint (busy : List Interval)
    (windowStart windowEnd dur : Int) (_hdur : 0 < dur)
    {s : Interval} (hs : s ∈ computeFreeSlots busy windowStart windowEnd dur)
    {b : Interval} (hb : b ∈ busy) :
    s.stop ≤ b.start ∨ b.stop ≤ s.start := by
  have hsorted : List.Pairwise startLE (sortByStart busy) :=
    List.sorted_insertionSort startLE busy
  have hb' : b ∈ sortByStart busy := (List.mem_insertionSort startLE).mpr hb
  exact sweep_disjoint hsorted hs hb'

/-- Witness for C1 at a concrete input: busy `[(40, 70)]`, window `[0, 100]`,
duration `10`; the slot `(0, 10)` is returned and is disjoint from the block. -/
theorem computeFreeSlots_disjoint_witness :
    (0 : Int) < 10 ∧
    Interval.mk 0 10 ∈ computeFreeSlots [⟨40, 70⟩] 0 100 10 ∧
    Interval.mk 40 70 ∈ ([⟨40, 70⟩] : List Interval) ∧
    ((Interval.mk 0 10).stop ≤ (Interval.mk 40 70).start ∨
      (Interval.mk 40 70).stop ≤ (Interval.mk 0 10).start) := by
  refine ⟨by norm_num, by decide, by decide, ?_⟩
  exact computeFreeSlots_disjoint [⟨40, 70⟩] 0 100 10 (by norm_num)
    (by decide) (by decide)

/-- Slot ends never pass the window end, provided no busy block starts after
the window end (gap slots are clipped at block starts, final slots at the
window end). -/
theorem sweep_stop_le {busy : List Interval} {cursor windowEnd dur : Int}
    (hbusy : ∀ b ∈ busy, b.start ≤ windowEnd)
    {s : Interval} (hs : s ∈ sweep busy cursor windowEnd dur) :
    s.stop ≤ windowEnd := by
  induction busy generalizing cursor with
  | nil =>
      rw [sweep] at hs
      split at hs
      · exact (emitSlots_mem hs).2.1
      · simp at hs
  | cons b rest ih =>
      rw [sweep] at hs
      rcases List.mem_append.mp hs with hgap | hrest
      · have hstop : s.stop ≤ b.start := by
          split at hgap
          · exact (emitSlots_mem hgap).2.1
          · simp at hgap
        exact le_trans hstop (hbusy b (List.mem_cons_self b rest))
      · exact ih (fun c hc => hbusy c (List.mem_cons_of_mem b hc)) hrest

/-- C2, counterexample. A busy interval that starts after the window end makes
the sweep emit slots past the window end: with window `[0, 10]`, duration `5`
and the single far-away busy block `(2000000, 2000001)`, the returned slot
`(1800000, 1800005)` ends after `windowEnd = 10`. -/
theorem computeFreeSlots_window_cex :
    ¬ (∀ s ∈ computeFreeSlots [⟨2000000, 2000001⟩] 0 10 5,
        0 ≤ s.start ∧ s.stop ≤ 10) := by
  decide

/-- C2, amended. Provided every busy interval starts no later than the window
end, every returned slot lies entirely within `[windowStart, windowEnd]`. -/
theorem computeFreeSlots_window (busy : List Interval)
    (windowStart windowEnd dur : Int) (_hdur : 0 < dur)
    (hbusy : ∀ b ∈ busy, b.start ≤ windowEnd)
    {s : Interval} (hs : s ∈ computeFreeSlots busy windowStart windowEnd dur) :
    windowStart ≤ s.start ∧ s.stop ≤ windowEnd := by
  refine ⟨sweep_cursor_le hs, ?_⟩
  refine sweep_stop_le ?_ hs
  intro b hb
  exact hbusy b ((List.mem_insertionSort startLE).mp hb)

/-- Witness for the amended C2 at a concrete input: busy `[(40, 70)]`,
window `[0, 100]`, duration `10`; the slot `(0, 10)` is returned and lies
within the window. -/
theorem computeFreeSlots_window_witness :
    (0 : Int) < 10 ∧
    (∀ b ∈ ([⟨40, 70⟩] : List Interval), b.start ≤ 100) ∧
    Interval.mk 0 10 ∈ computeFreeSlots [⟨40, 70⟩] 0 100 10 ∧
    ((0 : Int) ≤ (Interval.mk 0 10).start ∧ (Interval.mk 0 10).stop ≤ 100) := by
  refine ⟨by norm_num, by decide, by decide, ?_⟩
  exact computeFreeSlots_window [⟨40, 70⟩] 0 100 10 (by norm_num) (by decide)
    (by decide)

/-- Every slot the sweep emits spans exactly `dur`. -/
theorem sweep_duration {busy : List Interval} {cursor windowEnd dur : Int}
    {s : Interval} (hs : s ∈ sweep busy cursor windowEnd dur) :
    s.stop = s.start + dur := by
  induction busy generalizing cursor with
  | nil =>
      rw [sweep] at hs
      split at hs
      · exact (emitSlots_mem hs).2.2
      · simp at hs
  | cons b rest ih =>
      rw [sweep] at hs
      rcases List.mem_append.mp hs with hgap | hrest
      · split at hgap
        · exact (emitSlots_mem hgap).2.2
        · simp at hgap
      · exact ih hrest

/-- C3. Every returned slot satisfies `stop - start = dur` exactly, for every
busy list, window and requested duration. -/
theorem computeFreeSlots_duration (busy : List Interval)
    (windowStart windowEnd dur : Int)
    {s : Interval} (hs : s ∈ computeFreeSlots busy windowStart windowEnd dur) :
    s.stop - s.start = dur := by
  have := sweep_duration hs
  omega

/-- Witness for C3 at a concrete input: with no busy blocks, window `[0, 10]`
and duration `5`, the slot `(0, 5)` is returned and spans exactly `5`. -/
theorem computeFreeSlots_duration_witness :
    Interval.mk 0 5 ∈ computeFreeSlots [] 0 10 5 ∧
    (Interval.mk 0 5).stop - (Interval.mk 0 5).start = 5 := by
  refine ⟨by decide, ?_⟩
  exact computeFreeSlots_duration [] 0 10 5 (by decide)

/-- C4. End-to-end scenario A, with `09:00` as time zero (in milliseconds):
busy `[(10:00, 10:30)]`, window `[09:00, 11:00]`, duration 30 minutes yields
exactly `[(09:00, 09:30), (09:30, 10:00), (10:30, 11:00)]` in that order. -/
theorem computeFreeSlots_scenarioA :
    computeFreeSlots [⟨3600000, 5400000⟩] 0 7200000 1800000 =
      [⟨0, 1800000⟩, ⟨1800000, 3600000⟩, ⟨5400000, 7200000⟩] := by
  decide

/-! Lemmas for C10: contained busy intervals do not change the sweep. -/

theorem sweep_nil (c windowEnd dur : Int) :
    sweep [] c windowEnd dur =
      if windowEnd - c ≥ dur then emitSlots c windowEnd dur else [] := rfl

theorem sweep_cons (b : Interval) (rest : List Interval) (c windowEnd dur : Int) :
    sweep (b :: rest) c windowEnd dur =
      (if b.start - c ≥ dur then emitSlots c b.start dur else [])
        ++ sweep rest (max c b.stop) windowEnd dur := rfl

/-- Cursor-taint absorption: raising the cursor by `max`-ing in a value `d`
that some later block `b1` (whose start the cursor has already passed) will
absorb anyway does not change the sweep. -/
theorem sweep_absorb {u : List Interval} {c d windowEnd dur : Int} {b1 : Interval}
    (hsorted : List.Pairwise startLE u) (hdur : 0 < dur)
    (hb1 : b1 ∈ u) (hc : b1.start ≤ c) (hd : d ≤ b1.stop) :
    sweep u (max c d) windowEnd dur = sweep u c windowEnd dur := by
  induction u generalizing c with
  | nil => simp at hb1
  | cons a v ih =>
      have hac : a.start ≤ c := by
        rcases List.mem_cons.mp hb1 with rfl | hb1'
        · exact hc
        · exact le_trans ((List.pairwise_cons.mp hsorted).1 b1 hb1') hc
      rw [sweep_cons a v (max c d), sweep_cons a v c,
        if_neg (show ¬ a.start - max c d ≥ dur by omega),
        if_neg (show ¬ a.start - c ≥ dur by omega),
        List.nil_append, List.nil_append]
      rcases List.mem_cons.mp hb1 with rfl | hb1'
      · rw [show max (max c d) b1.stop = max c b1.stop by omega]
      · rw [show max (max c d) a.stop = max (max c a.stop) d by omega]
        exact ih (List.pairwise_cons.mp hsorted).2 hb1' (by omega)

/-- Inserting a block whose start and end the cursor has already passed is a
no-op for the sweep. -/
theorem sweep_insert_passed {u : List Interval} {c windowEnd dur : Int}
    {b2 : Interval} (hdur : 0 < dur) (hstart : b2.start ≤ c) (hstop : b2.stop ≤ c) :
    sweep (List.orderedInsert startLE b2 u) c windowEnd dur =
      sweep u c windowEnd dur := by
  induction u generalizing c with
  | nil =>
      show sweep [b2] c windowEnd dur = sweep [] c windowEnd dur
      rw [sweep_cons b2 [] c, if_neg (show ¬ b2.start - c ≥ dur by omega),
        List.nil_append, show max c b2.stop = c by omega]
  | cons a v ih =>
      rw [List.orderedInsert]
      by_cases hle : startLE b2 a
      · rw [if_pos hle, sweep_cons b2 (a :: v) c,
          if_neg (show ¬ b2.start - c ≥ dur by omega),
          List.nil_append, show max c b2.stop = c by omega]
      · rw [if_neg hle, sweep_cons a (List.orderedInsert startLE b2 v) c,
          sweep_cons a v c]
        congr 1
        exact ih (by omega) (by omega)

/-- Inserting a well-formed block `b2` contained in some block `b1` already
present in a sorted, well-formed busy list does not change the sweep. -/
theorem sweep_insert_contained {L : List Interval} {c windowEnd dur : Int}
    {b1 b2 : Interval}
    (hsorted : List.Pairwise startLE L) (hwf : ∀ x ∈ L, x.start ≤ x.stop)
    (hdur : 0 < dur) (hb1 : b1 ∈ L)
    (h12 : b1.start ≤ b2.start) (h21 : b2.stop ≤ b1.stop)
    (hwf2 : b2.start ≤ b2.stop) :
    sweep (List.orderedInsert startLE b2 L) c windowEnd dur =
      sweep L c windowEnd dur := by
  induction L generalizing c with
  | nil => simp at hb1
  | cons a u ih =>
      rw [List.orderedInsert]
      by_cases hle : startLE b2 a
      · -- `b2` lands at the head: then all starts down to `b1` coincide
        have hab1 : a.start ≤ b1.start := by
          rcases List.mem_cons.mp hb1 with rfl | hb1'
          · exact le_refl _
          · exact (List.pairwise_cons.mp hsorted).1 b1 hb1'
        have ha2 : b2.start = a.start := le_antisymm hle (le_trans hab1 h12)
        rw [if_pos hle, sweep_cons b2 (a :: u) c,
          sweep_cons a u (max c b2.stop), sweep_cons a u c, ha2,
          if_neg (show ¬ a.start - max c b2.stop ≥ dur by omega),
          List.nil_append]
        congr 1
        rcases List.mem_cons.mp hb1 with rfl | hb1'
        · rw [show max (max c b2.stop) b1.stop = max c b1.stop by omega]
        · have hawf : a.start ≤ a.stop := hwf a (List.mem_cons_self a u)
          rw [show max (max c b2.stop) a.stop = max (max c a.stop) b2.stop by omega]
          refine sweep_absorb (List.pairwise_cons.mp hsorted).2 hdur hb1' ?_ h21
          omega
      · rw [if_neg hle, sweep_cons a (List.orderedInsert startLE b2 u) c,
          sweep_cons a u c]
        congr 1
        rcases List.mem_cons.mp hb1 with rfl | hb1'
        · -- the container is the head: the cursor has passed `b2` already
          exact sweep_insert_passed hdur (by omega) (by omega)
        · exact ih (List.pairwise_cons.mp hsorted).2
            (fun x hx => hwf x (List.mem_cons_of_mem a hx)) hb1'

/-- Bubbling a block to the front of an equal-start, well-formed group does
not change the sweep. -/
theorem sweep_bubble {v : List Interval} {a : Interval} {windowEnd dur : Int}
    (hdur : 0 < dur) (hwfa : a.start ≤ a.stop) :
    ∀ (u : List Interval) (c : Int), (∀ x ∈ u, x.start ≤ x.stop) →
      (∀ x ∈ u, x.start = a.start) →
      sweep (u ++ a :: v) c windowEnd dur =
        sweep (a :: (u ++ v)) c windowEnd dur := by
  intro u
  induction u with
  | nil => intro c _ _; rfl
  | cons x u' ih =>
      intro c hwfu heq
      have hx : x.start = a.start := heq x (List.mem_cons_self x u')
      have hwfx : x.start ≤ x.stop := hwfu x (List.mem_cons_self x u')
      rw [List.cons_append, sweep_cons x (u' ++ a :: v) c,
        ih (max c x.stop) (fun y hy => hwfu y (List.mem_cons_of_mem x hy))
          (fun y hy => heq y (List.mem_cons_of_mem x hy)),
        sweep_cons a (u' ++ v) (max c x.stop),
        if_neg (show ¬ a.start - max c x.stop ≥ dur by omega),
        List.nil_append]
      rw [sweep_cons a (x :: u' ++ v) c, List.cons_append,
        sweep_cons x (u' ++ v) (max c a.stop),
        if_neg (show ¬ x.start - max c a.stop ≥ dur by omega),
        List.nil_append, hx]
      congr 1
      rw [show max (max c x.stop) a.stop = max (max c a.stop) x.stop by omega]

/-- Permutation invariance: two sorted, well-formed busy lists with the same
elements produce the same sweep, for any cursor. -/
theorem sweep_perm {windowEnd dur : Int} (hdur : 0 < dur) :
    ∀ (l l' : List Interval), List.Perm l' l →
      List.Pairwise startLE l → List.Pairwise startLE l' →
      (∀ x ∈ l, x.start ≤ x.stop) →
      ∀ c, sweep l' c windowEnd dur = sweep l c windowEnd dur := by
  intro l
  induction l with
  | nil =>
      intro l' hperm _ _ _ c
      rw [List.perm_nil.mp hperm]
  | cons a t ih =>
      intro l' hperm hsl hsl' hwf c
      have ha : a ∈ l' := hperm.mem_iff.mpr (List.mem_cons_self a t)
      obtain ⟨u, v, rfl⟩ := List.append_of_mem ha
      have hsides := List.pairwise_append.mp hsl'
      have hequ : ∀ x ∈ u, x.start = a.start := by
        intro x hx
        have h1 : x.start ≤ a.start :=
          hsides.2.2 x hx a (List.mem_cons_self a v)
        have h2 : a.start ≤ x.start := by
          have hx' : x ∈ a :: t :=
            hperm.subset (List.mem_append_left _ hx)
          rcases List.mem_cons.mp hx' with rfl | hx''
          · exact le_refl _
          · exact (List.pairwise_cons.mp hsl).1 x hx''
        exact le_antisymm h1 h2
      have hwf' : ∀ x ∈ u ++ a :: v, x.start ≤ x.stop := by
        intro x hx
        exact hwf x (hperm.subset hx)
      rw [sweep_bubble hdur (hwf' a (List.mem_append_right u (List.mem_cons_self a v)))
        u c (fun x hx => hwf' x (List.mem_append_left _ hx)) hequ]
      rw [sweep_cons a (u ++ v) c, sweep_cons a t c]
      congr 1
      have hperm' : List.Perm (u ++ v) t := by
        have h1 : List.Perm (a :: (u ++ v)) (a :: t) :=
          (List.perm_middle.symm.trans hperm)
        exact (List.perm_cons a).mp h1
      have hsub : List.Sublist (u ++ v) (u ++ a :: v) := by
        refine List.Sublist.append_left ?_ u
        exact List.sublist_cons_self a v
      exact ih (u ++ v) hperm' (List.pairwise_cons.mp hsl).2
        (hsl'.sublist hsub)
        (fun x hx => hwf x (List.mem_cons_of_mem a hx)) (max c a.stop)

/-- C10, counterexample. The claim fails for an inverted contained interval:
`b1 = (3600000, 7200000)` contains `b2 = (3600000, 1000)` in the sense of the
claim (`b1.start ≤ b2.start` and `b2.end ≤ b1.end`), yet removing `b2` from
`B = [b2, b1]` changes the slots (with window `[0, 10000000]`, duration
`1800000`): `b2` drags the cursor back to `1000`, emitting an extra slot
`(1000, 2801000)`. -/
theorem computeFreeSlots_contained_cex :
    ((Interval.mk 3600000 7200000).start ≤ (Interval.mk 3600000 1000).start ∧
      (Interval.mk 3600000 1000).stop ≤ (Interval.mk 3600000 7200000).stop) ∧
    computeFreeSlots [⟨3600000, 1000⟩, ⟨3600000, 7200000⟩] 0 10000000 1800000 ≠
      computeFreeSlots [⟨3600000, 7200000⟩] 0 10000000 1800000 := by
  decide

/-- C10, amended. If every busy interval is well-formed (`start ≤ end`) and
the requested duration is positive, then removing an interval `b2` contained
in another list member `b1` leaves the computed slots unchanged. -/
theorem computeFreeSlots_erase_contained (l1 l2 : List Interval)
    (b1 b2 : Interval) (windowStart windowEnd dur : Int) (hdur : 0 < dur)
    (hb1 : b1 ∈ l1 ++ l2) (h12 : b1.start ≤ b2.start) (h21 : b2.stop ≤ b1.stop)
    (hwf : ∀ x ∈ l1 ++ b2 :: l2, x.start ≤ x.stop) :
    computeFreeSlots (l1 ++ b2 :: l2) windowStart windowEnd dur =
      computeFreeSlots (l1 ++ l2) windowStart windowEnd dur := by
  have hwf2 : b2.start ≤ b2.stop :=
    hwf b2 (List.mem_append_right l1 (List.mem_cons_self b2 l2))
  have hwfM : ∀ x ∈ l1 ++ l2, x.start ≤ x.stop := by
    intro x hx
    rcases List.mem_append.mp hx with hx | hx
    · exact hwf x (List.mem_append_left _ hx)
    · exact hwf x (List.mem_append_right l1 (List.mem_cons_of_mem b2 hx))
  set L := sortByStart (l1 ++ l2) with hL
  have hLsorted : List.Pairwise startLE L := List.sorted_insertionSort startLE _
  have hLperm : List.Perm L (l1 ++ l2) := List.perm_insertionSort startLE _
  have hL'sorted : List.Pairwise startLE (List.orderedInsert startLE b2 L) :=
    List.Sorted.orderedInsert b2 L hLsorted
  have hBsorted : List.Pairwise startLE (sortByStart (l1 ++ b2 :: l2)) :=
    List.sorted_insertionSort startLE _
  have hBperm : List.Perm (sortByStart (l1 ++ b2 :: l2)) (List.orderedInsert startLE b2 L) := by
    refine (List.perm_insertionSort startLE _).trans ?_
    refine (List.perm_middle).trans ?_
    refine ((hLperm.symm).cons b2).trans ?_
    exact (List.perm_orderedInsert startLE b2 L).symm
  have hwfL' : ∀ x ∈ List.orderedInsert startLE b2 L, x.start ≤ x.stop := by
    intro x hx
    rcases (List.mem_orderedInsert startLE).mp hx with rfl | hx'
    · exact hwf2
    · exact hwfM x (hLperm.subset hx')
  unfold computeFreeSlots
  rw [sweep_perm hdur (List.orderedInsert startLE b2 L) (sortByStart (l1 ++ b2 :: l2))
    hBperm hL'sorted hBsorted hwfL' windowStart]
  exact sweep_insert_contained hLsorted (fun x hx => hwfM x (hLperm.subset hx))
    hdur ((List.mem_insertionSort startLE).mpr hb1) h12 h21 hwf2

/-- Witness for the amended C10 at a concrete input: removing
`b2 = (10, 20)` (contained in `b1 = (0, 100)`) from `[(10,20), (0,100)]`
leaves the slots for window `[0, 200]`, duration `30`, unchanged. -/
theorem computeFreeSlots_erase_contained_witness :
    (0 : Int) < 30 ∧
    Interval.mk 0 100 ∈ ([] ++ [Interval.mk 0 100]) ∧
    (Interval.mk 0 100).start ≤ (Interval.mk 10 20).start ∧
    (Interval.mk 10 20).stop ≤ (Interval.mk 0 100).stop ∧
    (∀ x ∈ ([] ++ Interval.mk 10 20 :: [Interval.mk 0 100]), x.start ≤ x.stop) ∧
    computeFreeSlots ([] ++ Interval.mk 10 20 :: [Interval.mk 0 100]) 0 200 30 =
      computeFreeSlots ([] ++ [Interval.mk 0 100]) 0 200 30 := by
  refine ⟨by norm_num, by decide, by decide, by decide, by decide, ?_⟩
  exact computeFreeSlots_erase_contained [] [⟨0, 100⟩] ⟨0, 100⟩ ⟨10, 20⟩ 0 200 30
    (by norm_num) (by decide) (by decide) (by decide) (by decide)

/-! Tool results, the Discord alert executor, and the manual dispatch
handler. -/

/-- Uniform tool outcome: the text payload of the single `content` entry of a
`CallToolResult` and its `isError` flag (absent flag = `false`). -/
structure ToolResult where
  text : String
  isError : Bool
  deriving DecidableEq, Repr

/-- Embedding of the JS string-or-default idiom `s || d` (empty string and
`undefined` are falsy). -/
def jsOrOpt (o : Option String) (d : String) : String :=
  match o with
  | none => d
  | some s => if s = "" then d else s

/-- Field of a Discord embed. -/
structure DiscordField where
  name : String
  value : String
  isInline : Bool
  deriving DecidableEq, Repr

/-- Embed of the Discord payload built by `sendDiscordAlert`. -/
structure DiscordEmbed where
  title : String
  description : String
  color : Int
  fields : List DiscordField
  footerText : String
  timestamp : String
  deriving DecidableEq, Repr

/-- Payload POSTed to the Discord webhook. -/
structure DiscordPayload where
  content : String
  embeds : List DiscordEmbed
  deriving DecidableEq, Repr

/-- Embedding of `sendDiscordAlert` from `tools/discord.ts`.  The webhook URL
comes from the environment (`none` = unset); `nowLocal`/`nowIso` stand for the
formatted current time; `respStatus`/`respBody` describe the webhook's HTTP
response.  The first component of the result is the outbound HTTP request
performed (`none` = the function returned before any request was constructed
or sent). -/
def sendDiscordAlert (webhookUrl : Option String)
    (visitorName company message : String) (nowLocal nowIso : String)
    (respStatus : Int) (respBody : String) :
    Option (String × DiscordPayload) × ToolResult :=
  match webhookUrl with
  | none => (none, ⟨"ERROR: DISCORD_WEBHOOK_URL not set.", true⟩)
  | some url =>
      if url = "" then (none, ⟨"ERROR: DISCORD_WEBHOOK_URL not set.", true⟩)
      else
        let payload : DiscordPayload :=
          { content := "🚨 **High-Value Lead Alert**",
            embeds := [{
              title := "🚨 New Lead Notification",
              description :=
                jsOrOpt (some message) "A high-value visitor interaction was detected.",
              color := 0xff4500,
              fields := [
                ⟨"👤 Visitor", jsOrOpt (some visitorName) "Unknown", true⟩,
                ⟨"🏢 Company", jsOrOpt (some company) "Not specified", true⟩,
                ⟨"⏰ Time", nowLocal, true⟩],
              footerText := "Vageshwar's Digital Twin — Automated Alert",
              timestamp := nowIso }] }
        (some (url, payload),
          if respStatus = 204 ∨ respStatus = 200 then
            ⟨"✅ Discord alert sent successfully. Vageshwar has been notified about "
              ++ visitorName ++ " from " ++ company ++ ".", false⟩
          else
            ⟨"Discord webhook returned HTTP " ++ toString respStatus ++ ": "
              ++ respBody, true⟩)

/-- C6. With the Discord webhook URL unconfigured, `sendDiscordAlert` returns
the configuration-error text with the error flag set, and the outbound-request
component is `none`: no HTTP request is constructed or sent, whatever the
other inputs are. -/
theorem sendDiscordAlert_unconfigured (visitorName company message
    nowLocal nowIso : String) (respStatus : Int) (respBody : String) :
    sendDiscordAlert none visitorName company message nowLocal nowIso
        respStatus respBody =
      (none, ⟨"ERROR: DISCORD_WEBHOOK_URL not set.", true⟩) := rfl

/-! Manual dispatch handler of the raw-SDK MCP server (the
`CallToolRequestSchema` handler with its `switch` on the tool name). -/

/-- Raw JSON argument object of a tool call: each declared key is present
(`some`) or absent (`none`). -/
structure RawArgs where
  query : Option String
  duration : Option Int
  visitor_name : Option String
  company : Option String
  message : Option String
  deriving DecidableEq, Repr

/-- Call into one of the three executor functions, with the argument values
the dispatch handler passes along. -/
inductive ExecutorCall where
  | github (query : String)
  | calendar (duration : Int)
  | discord (visitorName company message : String)
  deriving DecidableEq, Repr

/-- Outcome of the dispatch handler: either an error result returned without
touching any executor, or an executor invocation. -/
inductive DispatchResult where
  | reject (text : String)
  | invoke (call : ExecutorCall)
  deriving DecidableEq, Repr

/-- True exactly when the dispatch outcome invokes an executor function. -/
def DispatchResult.invokesExecutor : DispatchResult → Bool
  | .invoke _ => true
  | .reject _ => false

/-- Embedding of the `CallToolRequestSchema` handler's `switch`: `github_search`
and `get_calendar_slots` validate their argument before calling the executor
(JS falsiness: a missing or empty `query`, a missing, zero or non-positive
`duration`); `send_discord_alert` substitutes defaults (`|| "Unknown"`,
`|| ""`) and always calls the executor. -/
def callToolHandler (name : String) (args : RawArgs) : DispatchResult :=
  match name with
  | "github_search" =>
      match args.query with
      | none => .reject "ERROR: 'query' argument is required."
      | some q =>
          if q = "" then .reject "ERROR: 'query' argument is required."
          else .invoke (.github q)
  | "get_calendar_slots" =>
      match args.duration with
      | none =>
          .reject "ERROR: 'duration' argument must be a positive number (minutes)."
      | some d =>
          if d ≤ 0 then
            .reject "ERROR: 'duration' argument must be a positive number (minutes)."
          else .invoke (.calendar d)
  | "send_discord_alert" =>
      .invoke (.discord (jsOrOpt args.visitor_name "Unknown")
        (jsOrOpt args.company "Unknown") (jsOrOpt args.message ""))
  | _ => .reject ("Unknown tool: " ++ name)

/-- C5, counterexample. `send_discord_alert` declares `visitor_name`,
`company` and `message` as required, yet the handler, called with all of them
omitted, does not return an error: it invokes the executor with substituted
defaults. -/
theorem callToolHandler_discord_missing_cex :
    callToolHandler "send_discord_alert" ⟨none, none, none, none, none⟩ =
        .invoke (.discord "Unknown" "Unknown" "") ∧
      (callToolHandler "send_discord_alert"
        ⟨none, none, none, none, none⟩).invokesExecutor = true :=
  ⟨rfl, rfl⟩

/-- C5, amended. For `github_search` and `get_calendar_slots`, omitting the
declared required argument makes the handler return an error result naming
the missing key, without invoking the executor; `send_discord_alert` instead
substitutes defaults and always invokes its executor. -/
theorem callToolHandler_missing_required (args : RawArgs) :
    (args.query = none →
      callToolHandler "github_search" args =
        .reject "ERROR: 'query' argument is required.") ∧
    (args.duration = none →
      callToolHandler "get_calendar_slots" args =
        .reject "ERROR: 'duration' argument must be a positive number (minutes).") := by
  obtain ⟨q, d, vn, co, me⟩ := args
  constructor
  · intro h
    simp only at h
    subst h
    rfl
  · intro h
    simp only at h
    subst h
    rfl

/-- Witness for the amended C5 at concrete inputs: with every argument
omitted, `github_search` and `get_calendar_slots` are rejected with the
error naming their missing key. -/
theorem callToolHandler_missing_required_witness :
    ((RawArgs.mk none none none none none).query = none ∧
      callToolHandler "github_search" ⟨none, none, none, none, none⟩ =
        .reject "ERROR: 'query' argument is required.") ∧
    ((RawArgs.mk none none none none none).duration = none ∧
      callToolHandler "get_calendar_slots" ⟨none, none, none, none, none⟩ =
        .reject "ERROR: 'duration' argument must be a positive number (minutes).") :=
  ⟨⟨rfl, (callToolHandler_missing_required ⟨none, none, none, none, none⟩).1 rfl⟩,
    ⟨rfl, (callToolHandler_missing_required ⟨none, none, none, none, none⟩).2 rfl⟩⟩

/-! Line splitting and joining, embedding JS `code.split("\n")` and
`lines.join("\n")`. -/

/-- Embedding of `code.split("\n")` on character lists. -/
def splitLines : List Char → List (List Char)
  | [] => [[]]
  | c :: cs =>
      if c = '\n' then [] :: splitLines cs
      else
        match splitLines cs with
        | [] => [[c]]
        | l :: ls => (c :: l) :: ls

/-- Embedding of `lines.join("\n")` on character lists. -/
def joinLines : List (List Char) → List Char
  | [] => []
  | [l] => l
  | l :: ls => l ++ '\n' :: joinLines ls

theorem splitLines_no_newline :
    ∀ (s : List Char), ∀ l ∈ splitLines s, '\n' ∉ l := by
  intro s
  induction s with
  | nil =>
      intro l hl
      rw [splitLines] at hl
      rcases List.mem_singleton.mp hl with rfl
      simp
  | cons c cs ih =>
      intro l hl
      rw [splitLines] at hl
      by_cases hc : c = '\n'
      · rw [if_pos hc] at hl
        rcases List.mem_cons.mp hl with rfl | hl'
        · simp
        · exact ih l hl'
      · rw [if_neg hc] at hl
        cases hsp : splitLines cs with
        | nil =>
            rw [hsp] at hl
            rcases List.mem_singleton.mp hl with rfl
            intro hmem
            exact hc ((List.mem_singleton.mp hmem).symm)
        | cons m ms =>
            rw [hsp] at hl
            rcases List.mem_cons.mp hl with rfl | hl'
            · intro hmem
              rcases List.mem_cons.mp hmem with h | h
              · exact hc h.symm
              · exact ih m (hsp ▸ List.mem_cons_self m ms) h
            · exact ih l (hsp ▸ List.mem_cons_of_mem m hl')

theorem splitLines_append_newline {l : List Char} (hl : '\n' ∉ l)
    (r : List Char) :
    splitLines (l ++ '\n' :: r) = l :: splitLines r := by
  induction l with
  | nil =>
      rw [List.nil_append, splitLines, if_pos rfl]
  | cons c l ih =>
      have hc : c ≠ '\n' := fun h => hl (h ▸ List.mem_cons_self c l)
      rw [List.cons_append, splitLines, if_neg hc,
        ih (fun h => hl (List.mem_cons_of_mem c h))]

theorem splitLines_joinLines_newline :
    ∀ (ls : List (List Char)), ls ≠ [] → (∀ l ∈ ls, '\n' ∉ l) →
      ∀ (r : List Char),
        splitLines (joinLines ls ++ '\n' :: r) = ls ++ splitLines r := by
  intro ls
  induction ls with
  | nil => intro h; exact absurd rfl h
  | cons l ls ih =>
      intro _ hnl r
      cases ls with
      | nil =>
          rw [joinLines, List.cons_append, List.nil_append]
          exact splitLines_append_newline (hnl l (List.mem_cons_self l [])) r
      | cons l2 ls2 =>
          have hj : joinLines (l :: l2 :: ls2) = l ++ '\n' :: joinLines (l2 :: ls2) := rfl
          rw [hj, List.append_assoc, List.cons_append]
          rw [splitLines_append_newline (hnl l (List.mem_cons_self l _)) _]
          rw [ih (by intro h; cases h)
            (fun x hx => hnl x (List.mem_cons_of_mem l hx)) r]
          rfl

/-- Embedding of `truncateCode(code, maxLines)` from `tools/github.ts`:
return `code` unchanged when it has at most `maxLines` lines, otherwise the
first 20 lines, an omission marker, and the last 15 lines. -/
def truncateCode (code : List Char) (maxLines : Nat := 40) : List Char :=
  let lines := splitLines code
  if lines.length ≤ maxLines then code
  else
    joinLines (lines.take 20)
      ++ "\n\n  ... (".data
      ++ (toString ((lines.length : Int) - 35)).data
      ++ " lines omitted) ...\n\n".data
      ++ joinLines (lines.drop (lines.length - 15))

/-- Modelled from the spec: the fallback path's per-repository README
excerpt, "a README excerpt (first 20 lines)" — the first 20 lines of the
README, joined back with newlines. -/
def readmeFirstLines (readme : List Char) : List Char :=
  joinLines ((splitLines readme).take 20)

/-- C9, counterexample. On a README of 21 one-character lines, the excerpt
`truncateCode(readme, 20)` is not the first 20 lines: it is the first 20
lines followed by an omission marker and the last 15 lines. -/
theorem truncateCode_first20_cex :
    truncateCode (joinLines (List.replicate 21 ['a'])) 20 ≠
      readmeFirstLines (joinLines (List.replicate 21 ['a'])) := by
  decide

/-- C9, amended. The README excerpt `truncateCode(readme, 20)` equals the
README when it has at most 20 lines, and in any case its first 20 lines are
exactly the first 20 lines of the README (when longer, an omission marker
and the last 15 lines follow them). -/
theorem truncateCode_first20 (readme : List Char) :
    ((splitLines readme).length ≤ 20 → truncateCode readme 20 = readme) ∧
    (splitLines (truncateCode readme 20)).take 20 =
      (splitLines readme).take 20 := by
  constructor
  · intro hle
    rw [truncateCode]
    simp only
    rw [if_pos hle]
  · by_cases hle : (splitLines readme).length ≤ 20
    · rw [truncateCode]
      simp only
      rw [if_pos hle]
    · rw [truncateCode]
      simp only
      rw [if_neg hle]
      have h20 : ((splitLines readme).take 20).length = 20 := by
        rw [List.length_take]
        omega
      rw [List.append_assoc, List.append_assoc, List.append_assoc]
      simp only [List.cons_append]
      rw [splitLines_joinLines_newline ((splitLines readme).take 20)
        (by intro hnil; rw [hnil] at h20; simp at h20)
        (fun x hx => splitLines_no_newline readme x (List.take_subset 20 _ hx))]
      rw [List.take_append_of_le_length (le_of_eq h20.symm), List.take_of_length_le (le_of_eq h20)]

/-- Witness for the amended C9 at a concrete input: a two-line README is
returned unchanged, and its first 20 lines are its own. -/
theorem truncateCode_first20_witness :
    ((splitLines "ab\ncd".data).length ≤ 20 →
      truncateCode "ab\ncd".data 20 = "ab\ncd".data) ∧
    ((splitLines "ab\ncd".data).length ≤ 20 ∧
      truncateCode "ab\ncd".data 20 = "ab\ncd".data) := by
  refine ⟨(truncateCode_first20 "ab\ncd".data).1, by decide, ?_⟩
  exact (truncateCode_first20 "ab\ncd".data).1 (by decide)

/-! GitHub search tool (`tools/github.ts`): primary code search with a
repository-listing fallback. -/

/-- Boolean prefix test on character lists. -/
def isLeading : List Char → List Char → Bool
  | [], _ => true
  | _ :: _, [] => false
  | a :: as, b :: bs => a = b && isLeading as bs

/-- Embedding of JS `hay.includes(needle)` on character lists. -/
def containsChars : List Char → List Char → Bool
  | [], needle => needle.isEmpty
  | h :: t, needle => isLeading needle (h :: t) || containsChars t needle

/-- Embedding of JS `s.toLowerCase()` (ASCII letters). -/
def lowerStr (s : String) : String :=
  String.mk (s.data.map Char.toLower)

/-- Embedding of JS `hay.includes(needle)` on strings. -/
def containsStr (hay needle : String) : Bool :=
  containsChars hay.data needle.data

/-- String wrapper for `truncateCode`. -/
def truncateCodeStr (code : String) (maxLines : Nat := 40) : String :=
  String.mk (truncateCode code.data maxLines)

/-- Repository record returned by the GitHub repos-listing endpoint. -/
structure GHRepo where
  full_name : String
  description : Option String
  html_url : String
  language : Option String
  deriving Repr

/-- Code-search hit returned by the GitHub code-search endpoint. -/
structure GHSearchItem where
  path : String
  repo_full_name : String
  html_url : String
  deriving Repr

/-- Parsed body of a successful code-search response. -/
structure SearchData where
  total_count : Int
  items : List GHSearchItem
  deriving Repr

/-- Responses of the GitHub HTTP collaborators during one `githubSearch`
invocation: the code-search response (`none` = non-2xx), the repos-listing
response (`Except.error status` = non-2xx), and the decoded README and file
contents per repository (`none` = fetch failed or no content). -/
structure GithubEnv where
  searchResp : Option SearchData
  reposResp : Except Int (List GHRepo)
  readme : String → Option String
  fileContent : String → String → Option String

/-- README excerpt fetched for a matched repository in the fallback path:
the `truncateCode(readme, 20)` snippet, or `""` when the README fetch fails
or carries no content. -/
def readmeSnippetOf (env : GithubEnv) (fullName : String) : String :=
  match env.readme fullName with
  | some content => truncateCodeStr content 20
  | none => ""

/-- Embedding of `fallbackRepoSearch(query, username)`: list the user's
repositories, keep those whose name/description/language contains the
lower-cased query (at most 4), and attach a `truncateCode(readme, 20)`
excerpt for each. -/
def fallbackRepoSearch (env : GithubEnv) (query username : String) : ToolResult :=
  match env.reposResp with
  | .error status =>
      ⟨"Could not fetch repos: HTTP " ++ toString status, true⟩
  | .ok repos =>
      let q := lowerStr query
      let matched := (repos.filter (fun r =>
        containsStr
          (lowerStr (r.full_name ++ " " ++ r.description.getD "" ++ " "
            ++ r.language.getD "")) q)).take 4
      if matched.isEmpty then
        ⟨"No repositories found matching \"" ++ query ++ "\" for user "
          ++ username ++ ".", false⟩
      else
        let results : List String := matched.map (fun repo =>
          let readmeSnippet : String := readmeSnippetOf env repo.full_name
          let readmeBlock : String :=
            if readmeSnippet = "" then ""
            else "\nREADME:\n```\n" ++ readmeSnippet ++ "\n```"
          "📂 " ++ repo.full_name ++ "\n"
            ++ "📝 " ++ repo.description.getD "No description" ++ "\n"
            ++ "🔧 Language: " ++ repo.language.getD "Not specified" ++ "\n"
            ++ "🔗 " ++ repo.html_url ++ "\n"
            ++ readmeBlock)
        ⟨"🔍 Repos matching \"" ++ query ++ "\":\n\n"
          ++ String.intercalate "\n\n---\n\n" results, false⟩

/-- Embedding of `githubSearch(query)`: a scoped code search first; on a
non-2xx response, a zero-result response, or no usable file contents, the
repository-listing fallback. -/
def githubSearch (env : GithubEnv) (token username query : String) : ToolResult :=
  if token = "" ∨ username = "" then
    ⟨"ERROR: GITHUB_TOKEN or GITHUB_USERNAME not set in environment.", true⟩
  else
    match env.searchResp with
    | none => fallbackRepoSearch env query username
    | some searchData =>
        if searchData.total_count = 0 ∨ searchData.items.isEmpty then
          fallbackRepoSearch env query username
        else
          let snippets := (searchData.items.take 3).filterMap (fun item =>
            match env.fileContent item.repo_full_name item.path with
            | none => none
            | some code => some
                ("📂 " ++ item.repo_full_name ++ " → " ++ item.path ++ "\n"
                  ++ "🔗 " ++ item.html_url ++ "\n"
                  ++ "```\n" ++ truncateCodeStr code ++ "\n```"))
          if snippets.isEmpty then fallbackRepoSearch env query username
          else
            ⟨"🔍 GitHub search results for \"" ++ query ++ "\":\n\n"
              ++ String.intercalate "\n\n---\n\n" snippets, false⟩

/-- C8. When the code-search endpoint responds successfully with zero results
(`total_count == 0` or an empty `items` array), `githubSearch` returns
exactly the repository-listing fallback's result, and — whenever the repos
listing itself succeeds — that overall result is not an error. -/
theorem githubSearch_empty_fallback (env : GithubEnv)
    (token username query : String) (searchData : SearchData)
    (htoken : ¬ token = "") (huser : ¬ username = "")
    (hresp : env.searchResp = some searchData)
    (hempty : searchData.total_count = 0 ∨ searchData.items.isEmpty) :
    githubSearch env token username query = fallbackRepoSearch env query username ∧
    (∀ repos, env.reposResp = Except.ok repos →
      (githubSearch env token username query).isError = false) := by
  have hmain : githubSearch env token username query =
      fallbackRepoSearch env query username := by
    rw [githubSearch, if_neg (by push_neg; exact ⟨htoken, huser⟩), hresp]
    simp only
    rw [if_pos (by rcases hempty with h | h
                   · exact Or.inl h
                   · exact Or.inr h)]
  refine ⟨hmain, ?_⟩
  intro repos hrepos
  rw [hmain, fallbackRepoSearch, hrepos]
  simp only
  split
  · rfl
  · rfl

/-- Witness for C8 at a concrete input: a successful zero-result search
response with a successful (empty) repos listing falls back and reports no
error. -/
theorem githubSearch_empty_fallback_witness :
    (¬ ("t" : String) = "") ∧ (¬ ("u" : String) = "") ∧
    (GithubEnv.mk (some ⟨0, []⟩) (Except.ok []) (fun _ => none)
        (fun _ _ => none)).searchResp = some ⟨0, []⟩ ∧
    ((SearchData.mk 0 []).total_count = 0 ∨ (SearchData.mk 0 []).items.isEmpty) ∧
    githubSearch (GithubEnv.mk (some ⟨0, []⟩) (Except.ok []) (fun _ => none)
        (fun _ _ => none)) "t" "u" "q" =
      fallbackRepoSearch (GithubEnv.mk (some ⟨0, []⟩) (Except.ok [])
        (fun _ => none) (fun _ _ => none)) "q" "u" := by
  refine ⟨by decide, by decide, rfl, Or.inl rfl, ?_⟩
  exact (githubSearch_empty_fallback
    (GithubEnv.mk (some ⟨0, []⟩) (Except.ok []) (fun _ => none) (fun _ _ => none))
    "t" "u" "q" ⟨0, []⟩ (by decide) (by decide) rfl (Or.inl rfl)).1

/-! Tool-call detector.  Modelled from the spec: the Python backend
(`backend/main.py`) is absent from the embedded sources; the README documents
its regex `TOOL:(\w+)\|ARGS:(\x7b[^\x7d]*\x7d)`, searched anywhere in the
model output (leftmost match wins), with the captured JSON object parsed and
the directive discarded on parse failure (fail-open). -/

/-- Word-character test of the regex `\w` (ASCII letters, digits and the
underscore). -/
def isWordChar (c : Char) : Bool := c.isAlphanum || c = '_'

/-- If `pat` is a leading run of `s`, return the remainder of `s`. -/
def chomp : List Char → List Char → Option (List Char)
  | [], s => some s
  | _ :: _, [] => none
  | p :: ps, c :: cs => if p = c then chomp ps cs else none

/-- Characters of the literal marker `TOOL:`. -/
def toolMarker : List Char := "TOOL:".data

/-- Characters of the literal `|ARGS:` marker together with the opening brace
of the argument object. -/
def argsOpenMarker : List Char := "|ARGS:".data ++ ['\x7b']

/-- Modelled from the spec: capture of the `\w+` tool-name group — the
maximal leading word-character run, which must be nonempty. -/
def parseNameAt (r1 : List Char) : Option (List Char × List Char) :=
  let name := r1.takeWhile isWordChar
  if name.isEmpty then none
  else some (name, r1.dropWhile isWordChar)

/-- Modelled from the spec: capture of the `[^\x7d]*` body followed by the
closing brace — everything up to the first closing brace, which must exist. -/
def extractBody (r4 : List Char) : Option (List Char) :=
  match r4.dropWhile (· != '\x7d') with
  | '\x7d' :: _ => some (r4.takeWhile (· != '\x7d'))
  | _ => none

/-- Modelled from the spec: one attempt to match the directive pattern at the
very start of `s`; yields the tool name and the braced JSON text. -/
def matchDirectiveAt (s : List Char) : Option (List Char × List Char) :=
  match chomp toolMarker s with
  | none => none
  | some r1 =>
      match parseNameAt r1 with
      | none => none
      | some (name, r2) =>
          match chomp argsOpenMarker r2 with
          | none => none
          | some r4 =>
              match extractBody r4 with
              | none => none
              | some body => some (name, ('\x7b' :: body) ++ ['\x7d'])

/-- Modelled from the spec: `re.search` — try the pattern at every position,
left to right, returning the leftmost match. -/
def findDirective : List Char → Option (List Char × List Char)
  | [] => none
  | c :: t =>
      match matchDirectiveAt (c :: t) with
      | some r => some r
      | none => findDirective t

/-! A small JSON-object parser, modelled from the spec's "JSON object
literal" (`json.loads` restricted to the flat objects the regex can capture:
string keys, scalar values, no escape sequences). -/

/-- JSON scalar value. -/
inductive JsonVal where
  | str (s : String)
  | num (n : Int)
  | boolean (b : Bool)
  | null
  deriving DecidableEq, Repr

/-- Skip JSON whitespace. -/
def skipWs (s : List Char) : List Char :=
  s.dropWhile (fun c => c == ' ' || c == '\t' || c == '\n' || c == '\r')

/-- Parse a JSON string literal (no escape sequences). -/
def parseJString : List Char → Option (String × List Char)
  | '"' :: rest =>
      (match rest.dropWhile (· != '"') with
       | '"' :: r => some (String.mk (rest.takeWhile (· != '"')), r)
       | _ => none)
  | _ => none

/-- Digit run value. -/
def digitsToNat (ds : List Char) : Nat :=
  ds.foldl (fun acc c => acc * 10 + (c.toNat - 48)) 0

/-- Parse a nonempty digit run. -/
def parseDigits (s : List Char) : Option (Nat × List Char) :=
  let ds := s.takeWhile Char.isDigit
  if ds.isEmpty then none
  else some (digitsToNat ds, s.dropWhile Char.isDigit)

/-- Parse a JSON scalar value. -/
def parseJVal (s : List Char) : Option (JsonVal × List Char) :=
  match parseJString s with
  | some (str, r) => some (.str str, r)
  | none =>
      match s with
      | 't' :: 'r' :: 'u' :: 'e' :: r => some (.boolean true, r)
      | 'f' :: 'a' :: 'l' :: 's' :: 'e' :: r => some (.boolean false, r)
      | 'n' :: 'u' :: 'l' :: 'l' :: r => some (.null, r)
      | '-' :: r =>
          (match parseDigits r with
           | some (n, r2) => some (.num (-(n : Int)), r2)
           | none => none)
      | _ =>
          (match parseDigits s with
           | some (n, r2) => some (.num (n : Int), r2)
           | none => none)

/-- Parse a comma-separated run of `"key": value` pairs (fuel-bounded). -/
def parsePairs : Nat → List Char → Option (List (String × JsonVal) × List Char)
  | 0, _ => none
  | fuel + 1, s =>
      match parseJString (skipWs s) with
      | none => none
      | some (k, r1) =>
          match skipWs r1 with
          | ':' :: r2 =>
              (match parseJVal (skipWs r2) with
               | none => none
               | some (v, r3) =>
                   (match skipWs r3 with
                    | ',' :: r4 =>
                        (match parsePairs fuel r4 with
                         | some (ps, r5) => some ((k, v) :: ps, r5)
                         | none => none)
                    | r3' => some ([(k, v)], r3')))
          | _ => none

/-- Parse one complete JSON object, requiring no trailing garbage. -/
def parseJsonObj (s : List Char) : Option (List (String × JsonVal)) :=
  match skipWs s with
  | '\x7b' :: r =>
      (match skipWs r with
       | '\x7d' :: r2 => if (skipWs r2).isEmpty then some [] else none
       | _ =>
           (match parsePairs (r.length + 1) r with
            | some (ps, rest) =>
                (match skipWs rest with
                 | '\x7d' :: r2 => if (skipWs r2).isEmpty then some ps else none
                 | _ => none)
            | none => none))
  | _ => none

/-- Directive extracted from model output: tool name and argument mapping. -/
structure ToolCallDirective where
  name : String
  args : List (String × JsonVal)
  deriving DecidableEq, Repr

/-- Modelled from the spec: the backend's detector — search the model output
for the directive pattern, parse the captured JSON object, and fail open
(yield nothing) when the JSON does not parse. -/
def detectToolCall (s : String) : Option ToolCallDirective :=
  match findDirective s.data with
  | none => none
  | some (name, jsonText) =>
      match parseJsonObj jsonText with
      | none => none
      | some m => some ⟨String.mk name, m⟩

/-- Text shape of a model output embedding one directive after arbitrary
leading prose `pre`: `pre ++ "TOOL:" ++ name ++ "|ARGS:" ++ "{" ++ body ++
"}" ++ post`. -/
def mkDirectiveText (pre name body post : List Char) : List Char :=
  pre ++ (toolMarker ++ (name ++ (argsOpenMarker ++ (body ++ '\x7d' :: post))))

/-! Lemmas about the detector. -/

theorem chomp_append : ∀ (p s : List Char), chomp p (p ++ s) = some s := by
  intro p
  induction p with
  | nil => intro s; rfl
  | cons c p ih =>
      intro s
      rw [List.cons_append, chomp, if_pos rfl]
      exact ih s

theorem takeWhile_run {f : Char → Bool} :
    ∀ (xs : List Char) (y : Char) (ys : List Char),
      (∀ c ∈ xs, f c = true) → f y = false →
      (xs ++ y :: ys).takeWhile f = xs ∧ (xs ++ y :: ys).dropWhile f = y :: ys := by
  intro xs
  induction xs with
  | nil =>
      intro y ys _ hy
      rw [List.nil_append]
      constructor
      · rw [List.takeWhile_cons, hy]
        rfl
      · rw [List.dropWhile_cons, hy]
        rfl
  | cons x xs ih =>
      intro y ys hall hy
      have hx : f x = true := hall x (List.mem_cons_self x xs)
      obtain ⟨h1, h2⟩ := ih y ys (fun c hc => hall c (List.mem_cons_of_mem x hc)) hy
      constructor
      · rw [List.cons_append, List.takeWhile_cons, hx]
        simp [h1]
      · rw [List.cons_append, List.dropWhile_cons, hx]
        simp [h2]

theorem parseNameAt_run (name : List Char) (hname1 : name ≠ [])
    (hname2 : ∀ c ∈ name, isWordChar c = true) (ys : List Char) :
    parseNameAt (name ++ '|' :: ys) = some (name, '|' :: ys) := by
  obtain ⟨h1, h2⟩ := takeWhile_run name '|' ys hname2 rfl
  rw [parseNameAt]
  simp only [h1, h2]
  rw [if_neg (by
    intro h
    exact hname1 (List.isEmpty_iff.mp h))]

theorem extractBody_run (body : List Char) (hbody : '\x7d' ∉ body)
    (post : List Char) :
    extractBody (body ++ '\x7d' :: post) = some body := by
  have hall : ∀ c ∈ body, (c != '\x7d') = true := by
    intro c hc
    have : c ≠ '\x7d' := fun h => hbody (h ▸ hc)
    simp [this]
  obtain ⟨h1, h2⟩ := takeWhile_run body '\x7d' post hall (by rfl)
  rw [extractBody]
  simp only [h1, h2]

theorem matchDirectiveAt_core (name body post : List Char)
    (hname1 : name ≠ []) (hname2 : ∀ c ∈ name, isWordChar c = true)
    (hbody : '\x7d' ∉ body) :
    matchDirectiveAt
        (toolMarker ++ (name ++ (argsOpenMarker ++ (body ++ '\x7d' :: post)))) =
      some (name, ('\x7b' :: body) ++ ['\x7d']) := by
  have hsplit : name ++ (argsOpenMarker ++ (body ++ '\x7d' :: post)) =
      name ++ ('|' :: (("ARGS:".data ++ ['\x7b']) ++ (body ++ '\x7d' :: post))) := rfl
  have hname := parseNameAt_run name hname1 hname2
    (("ARGS:".data ++ ['\x7b']) ++ (body ++ '\x7d' :: post))
  have hchomp2 : chomp argsOpenMarker
      ('|' :: (("ARGS:".data ++ ['\x7b']) ++ (body ++ '\x7d' :: post))) =
      some (body ++ '\x7d' :: post) := by
    have hshape : ('|' :: (("ARGS:".data ++ ['\x7b']) ++ (body ++ '\x7d' :: post)))
        = argsOpenMarker ++ (body ++ '\x7d' :: post) := rfl
    rw [hshape]
    exact chomp_append _ _
  have hbody' := extractBody_run body hbody post
  rw [matchDirectiveAt]
  simp only [chomp_append, hsplit, hname, hchomp2, hbody']

theorem findDirective_of_matchAt {s : List Char} {r : List Char × List Char}
    (h : matchDirectiveAt s = some r) : findDirective s = some r := by
  cases s with
  | nil => cases h
  | cons c t =>
      rw [findDirective, h]

theorem findDirective_skip : ∀ (pre rest : List Char),
    (∀ k < pre.length, matchDirectiveAt (List.drop k (pre ++ rest)) = none) →
    findDirective (pre ++ rest) = findDirective rest := by
  intro pre
  induction pre with
  | nil => intro rest _; rfl
  | cons c pre ih =>
      intro rest hpre
      rw [List.cons_append, findDirective]
      have h0 := hpre 0 (Nat.succ_pos _)
      rw [List.drop_zero, List.cons_append] at h0
      rw [h0]
      exact ih rest (fun k hk => by
        have := hpre (k + 1) (Nat.succ_lt_succ hk)
        rwa [List.cons_append, List.drop_succ_cons] at this)

theorem findDirective_none : ∀ (s : List Char),
    (∀ k < s.length, matchDirectiveAt (List.drop k s) = none) →
    findDirective s = none := by
  intro s
  induction s with
  | nil => intro _; rfl
  | cons c t ih =>
      intro h
      rw [findDirective]
      have h0 := h 0 (Nat.succ_pos _)
      rw [List.drop_zero] at h0
      rw [h0]
      exact ih (fun k hk => by
        have := h (k + 1) (Nat.succ_lt_succ hk)
        rwa [List.drop_succ_cons] at this)

/-- C7. The detector: (1) on a model output consisting of prose with no
earlier pattern match followed by one well-formed directive whose JSON object
parses, it yields exactly that directive (name and argument mapping; first
match wins); (2) on a string in which the pattern matches nowhere, it yields
nothing; (3) on a model output whose (single, first) matched directive
carries a JSON object that fails to parse, it yields nothing (fail-open). -/
theorem detectToolCall_spec :
    (∀ (pre name body post : List Char) (m : List (String × JsonVal)),
      (∀ k < pre.length,
        matchDirectiveAt (List.drop k (mkDirectiveText pre name body post)) = none) →
      name ≠ [] → (∀ c ∈ name, isWordChar c = true) → '\x7d' ∉ body →
      parseJsonObj (('\x7b' :: body) ++ ['\x7d']) = some m →
      detectToolCall (String.mk (mkDirectiveText pre name body post)) =
        some ⟨String.mk name, m⟩) ∧
    (∀ (s : String),
      (∀ k < s.data.length, matchDirectiveAt (List.drop k s.data) = none) →
      detectToolCall s = none) ∧
    (∀ (pre name body post : List Char),
      (∀ k < pre.length,
        matchDirectiveAt (List.drop k (mkDirectiveText pre name body post)) = none) →
      name ≠ [] → (∀ c ∈ name, isWordChar c = true) → '\x7d' ∉ body →
      parseJsonObj (('\x7b' :: body) ++ ['\x7d']) = none →
      detectToolCall (String.mk (mkDirectiveText pre name body post)) = none) := by
  refine ⟨?_, ?_, ?_⟩
  · intro pre name body post m hpre hname1 hname2 hbody hjson
    have hfind : findDirective (mkDirectiveText pre name body post) =
        some (name, ('\x7b' :: body) ++ ['\x7d']) := by
      rw [mkDirectiveText, findDirective_skip pre _ hpre]
      exact findDirective_of_matchAt (matchDirectiveAt_core name body post
        hname1 hname2 hbody)
    rw [detectToolCall]
    simp only [hfind, hjson]
  · intro s h
    rw [detectToolCall]
    simp only [findDirective_none s.data h]
  · intro pre name body post hpre hname1 hname2 hbody hjson
    have hfind : findDirective (mkDirectiveText pre name body post) =
        some (name, ('\x7b' :: body) ++ ['\x7d']) := by
      rw [mkDirectiveText, findDirective_skip pre _ hpre]
      exact findDirective_of_matchAt (matchDirectiveAt_core name body post
        hname1 hname2 hbody)
    rw [detectToolCall]
    simp only [hfind, hjson]

/-- Witness for C7 at concrete inputs: prose followed by
`TOOL:github_search|ARGS:` with the JSON object mapping "query" to "React"
is detected as that one directive; "hello there" yields nothing; a directive
with the unparseable body `oops` yields nothing. -/
theorem detectToolCall_spec_witness :
    detectToolCall (String.mk (mkDirectiveText "Let me check. ".data
        "github_search".data "\"query\":\"React\"".data [])) =
      some ⟨"github_search", [("query", JsonVal.str "React")]⟩ ∧
    detectToolCall "hello there" = none ∧
    detectToolCall (String.mk (mkDirectiveText [] "x".data "oops".data [])) =
      none := by
  refine ⟨?_, ?_, ?_⟩
  · exact detectToolCall_spec.1 "Let me check. ".data "github_search".data
      "\"query\":\"React\"".data [] [("query", JsonVal.str "React")]
      (by decide) (by decide) (by decide) (by decide) (by decide)
  · exact detectToolCall_spec.2.1 "hello there" (by decide)
  · exact detectToolCall_spec.2.2 [] "x".data "oops".data []
      (by decide) (by decide) (by decide) (by decide) (by decide)

end DigitalTwin
